import Mathlib

/-!
Verification of the starfish repository: the `starfish.util.exec` module
(`stages`, `prepare_stage`) and the `DecodeSpots` decoder package.
The exec module and the `DecodeSpots/__init__.py` export computation are
embedded from the source; the decoder algorithms themselves are modelled
from the specification, since only their package declaration is present.
-/

namespace Starfish

/-! ## Embedding of starfish/util/exec.py -/

/-- An element of a stage: either a plain string, or a callable that is
invoked with the keyword argument tempdir and returns a string. -/
inductive StageElem where
  | str (s : String)
  | callable (f : String → String)

/-- The fixed command-line elements prepended for the starfish entry point
when coverage is enabled, from the source of prepare_stage. -/
def coverageStarfishCmd : List String :=
  ["coverage", "run", "-p", "--source", "starfish", "-m", "starfish"]

/-- The fixed command-line elements prepended for the validate-sptx entry
point when coverage is enabled, from the source of prepare_stage. -/
def coverageValidateCmd : List String :=
  ["coverage", "run", "-p", "--source", "validate_sptx", "-m", "validate_sptx"]

/-- Evaluation of one element of the command-line list comprehension in
prepare_stage: a callable is invoked with the keyword argument tempdir, a
string is kept as is. -/
def evalElem (tempdir : String) : StageElem → String
  | .callable f => f tempdir
  | .str s => s

/-- Embedding of prepare_stage: build the command line by mapping each
element of the stage (calling callables with tempdir), then inspect
cmdline[0] (an index error, modelled as none, when the stage is empty) and
prepend the coverage command when the STARFISH_COVERAGE environment
variable is set (coverageEnabled) and the first element is the starfish or
validate-sptx entry point. -/
def prepare_stage (stage : List StageElem) (tempdir : String)
    (coverageEnabled : Bool) : Option (List String) :=
  let cmdline := stage.map (evalElem tempdir)
  match cmdline with
  | [] => none
  | first :: rest =>
    if first = "starfish" ∧ coverageEnabled then
      some (coverageStarfishCmd ++ rest)
    else if first = "validate-sptx" ∧ coverageEnabled then
      some (coverageValidateCmd ++ rest)
    else
      some (first :: rest)

/-- Filesystem and process events performed by stages, in order. -/
inductive FsOp where
  | mkdtemp (dir : String)
  | makedirs (path : String)
  | checkCall (cmdline : List String)
  | rmtree (dir : String)
deriving DecidableEq

/-- Errors that can escape the try block of stages. -/
inductive ExecErr where
  | makedirsErr (path : String)
  | indexErr
  | calledProcessErr (cmdline : List String)
deriving DecidableEq

/-- The subdirectory-creation loop at the top of the try block of stages:
os.makedirs is attempted for each subdir under tempdir, stopping at the
first failure. Returns the trace of makedirs operations and the error, if
raised. -/
def mkdirsLoop (tempdir : String) (makedirsFails : String → Bool) :
    List String → List FsOp × Option ExecErr
  | [] => ([], none)
  | subdir :: more =>
    let p := tempdir ++ "/" ++ subdir
    if makedirsFails p then ([], some (.makedirsErr p))
    else
      let (ops, err) := mkdirsLoop tempdir makedirsFails more
      (.makedirs p :: ops, err)

/-- The command loop of the try block of stages: each stage is prepared
with prepare_stage and executed with subprocess.check_call, stopping at
the first error (the index error of prepare_stage on an empty stage, or a
nonzero exit of check_call). -/
def cmdLoop (tempdir : String) (checkCallFails : List String → Bool)
    (coverageEnabled : Bool) :
    List (List StageElem) → List FsOp × Option ExecErr
  | [] => ([], none)
  | stage :: more =>
    match prepare_stage stage tempdir coverageEnabled with
    | none => ([], some .indexErr)
    | some cmdline =>
      if checkCallFails cmdline then
        ([.checkCall cmdline], some (.calledProcessErr cmdline))
      else
        let (ops, err) := cmdLoop tempdir checkCallFails coverageEnabled more
        (.checkCall cmdline :: ops, err)

/-- Result of the try block of stages: the trace of operations performed
so far and the error, if one was raised. -/
def stagesTryBody (commands : List (List StageElem)) (subdirs : List String)
    (tempdir : String) (makedirsFails : String → Bool)
    (checkCallFails : List String → Bool) (coverageEnabled : Bool) :
    List FsOp × Option ExecErr :=
  let (mkOps, mkErr) := mkdirsLoop tempdir makedirsFails subdirs
  match mkErr with
  | some e => (mkOps, some e)
  | none =>
    let (cOps, cErr) := cmdLoop tempdir checkCallFails coverageEnabled commands
    (mkOps ++ cOps, cErr)

/-- Embedding of stages: create a temporary directory, run the try block
(make the subdirectories, then prepare and execute every command), and in
the finally clause remove the temporary directory unless keep_data is set.
The result is the full trace of operations together with the escaping
error, if any. -/
def stages (commands : List (List StageElem)) (subdirs : List String)
    (keep_data : Bool) (tempdir : String) (makedirsFails : String → Bool)
    (checkCallFails : List String → Bool) (coverageEnabled : Bool) :
    List FsOp × Option ExecErr :=
  let (bodyOps, bodyErr) :=
    stagesTryBody commands subdirs tempdir makedirsFails checkCallFails coverageEnabled
  let cleanup : List FsOp := if keep_data then [] else [.rmtree tempdir]
  (.mkdtemp tempdir :: bodyOps ++ cleanup, bodyErr)

/-! ## Embedding of starfish/core/spots/DecodeSpots/__init__.py -/

/-- The classes bound in the DecodeSpots package namespace after all six
of its from-import statements run. -/
inductive PyClass where
  | DecodeSpotsAlgorithm
  | CheckAll
  | MetricDistance
  | PerRoundMaxChannel
  | SimpleLookupDecoder
  | MultiBarcodeDecoder
deriving DecidableEq, Fintype

/-- A value bound in the module namespace: a class object, a submodule
object (bound as a package attribute by a from-import), or a string such
as the dunder name of the module. -/
inductive PyVal where
  | cls (c : PyClass)
  | module (name : String)
  | str (s : String)
deriving DecidableEq

/-- Modelled from the spec: each of the five strategy classes implements
the single abstract decoding contract, that is, subclasses
DecodeSpotsAlgorithm; the class definitions live in the five submodules,
which are not present under src. In Python a class is also a subclass of
itself. -/
def pyIssubclass (a b : PyClass) : Bool :=
  a = b ∨ b = PyClass.DecodeSpotsAlgorithm

/-- The module namespace of the DecodeSpots package at the point where its
dunder all is computed, in insertion order: the dunder name (a string,
standing in for all the non-class dunder bindings, which the type filter
removes alike), and for each from-import both the submodule binding and
the imported class. -/
def moduleLocals : List (String × PyVal) :=
  [("__name__", .str "starfish.core.spots.DecodeSpots"),
   ("_base", .module "_base"),
   ("DecodeSpotsAlgorithm", .cls .DecodeSpotsAlgorithm),
   ("check_all_decoder", .module "check_all_decoder"),
   ("CheckAll", .cls .CheckAll),
   ("metric_decoder", .module "metric_decoder"),
   ("MetricDistance", .cls .MetricDistance),
   ("per_round_max_channel_decoder", .module "per_round_max_channel_decoder"),
   ("PerRoundMaxChannel", .cls .PerRoundMaxChannel),
   ("simple_lookup_decoder", .module "simple_lookup_decoder"),
   ("SimpleLookupDecoder", .cls .SimpleLookupDecoder),
   ("multi_barcode_decoder", .module "multi_barcode_decoder"),
   ("MultiBarcodeDecoder", .cls .MultiBarcodeDecoder)]

/-- Embedding of the dunder-all computation of the package: the names in
the module namespace whose bound value is a type and a subclass of
DecodeSpotsAlgorithm. The source wraps the generator in list(set(...)),
whose order is unspecified; the claims only concern membership, which the
order does not affect. -/
def allExports : List String :=
  moduleLocals.filterMap (fun p =>
    match p.2 with
    | .cls c =>
      if pyIssubclass c .DecodeSpotsAlgorithm then some p.1 else none
    | _ => none)

/-- The names of the five interchangeable decoding strategies. -/
def fiveStrategyNames : List String :=
  ["SimpleLookupDecoder", "PerRoundMaxChannel", "MetricDistance",
   "CheckAll", "MultiBarcodeDecoder"]

/-- The package exports exactly the five strategies, as the claim states
it: every exported name is bound to a subclass of DecodeSpotsAlgorithm,
every strategy name is exported, and no name outside the five is
exported. -/
def exportsExactlyFive : Prop :=
  (∀ n ∈ allExports, ∃ c, moduleLocals.lookup n = some (.cls c) ∧
    pyIssubclass c .DecodeSpotsAlgorithm) ∧
  (∀ s ∈ fiveStrategyNames, s ∈ allExports) ∧
  (∀ n ∈ allExports, n ∈ fiveStrategyNames)

/-! ## The decoder family, modelled from the specification

The five decoding strategies live in submodules that are declared by the
package but are not present under src, so they are modelled from the
specification (sections 3, 4 and 7 of the spec). Intensities are exact
integers: the spec treats measurements as exact numeric values and the
claims only involve exact arithmetic, with pathological measurements
(NaN, infinity) represented explicitly. -/

/-- Modelled from the spec: a single intensity measurement, either a
finite numeric value or a pathological NaN or infinite value. -/
inductive Meas where
  | val (z : ℤ)
  | nan
  | inf
deriving DecidableEq

/-- A measurement is finite when it is an actual numeric value. -/
def Meas.isFinite : Meas → Bool
  | .val _ => true
  | .nan => false
  | .inf => false

/-- The numeric value of a finite measurement; pathological measurements
are never read through this function by the decoders. -/
def Meas.toInt : Meas → ℤ
  | .val z => z
  | .nan => 0
  | .inf => 0

/-- Modelled from the spec: one record of the Intensity Table, a spot
identifier and the dense rounds-by-channels array of measurements. -/
structure Spot where
  id : Nat
  intensities : List (List Meas)
deriving DecidableEq

/-- A spot is pathological when any of its measurements is NaN or
infinite. -/
def Spot.pathological (s : Spot) : Bool :=
  s.intensities.any (fun row => row.any (fun m => !m.isFinite))

/-- The finite numeric view of the measurements of a spot. -/
def Spot.finiteVals (s : Spot) : List (List ℤ) :=
  s.intensities.map (fun row => row.map Meas.toInt)

/-- Modelled from the spec: one codebook entry, a target identity and the
barcode, the ordered sequence of the activated channel per round. -/
structure CodeEntry where
  target : String
  barcode : List Nat
deriving DecidableEq

/-- Modelled from the spec: a codebook, with the shared round and channel
dimensions and the set of entries. -/
structure Codebook where
  rounds : Nat
  channels : Nat
  entries : List CodeEntry
deriving DecidableEq

/-- Modelled from the spec: the outcome for one spot, either an assigned
target identity or a no-call sentinel with its diagnostic reason. -/
inductive Call where
  | target (t : String)
  | noCall (reason : String)
deriving DecidableEq

/-- Modelled from the spec: one record of the Decoded Table. -/
structure DecodedRecord where
  spotId : Nat
  call : Call
deriving DecidableEq

/-- Modelled from the spec: the fatal error kinds of a decode. -/
inductive Fatal where
  | DimensionMismatch
  | InvalidCodebook
  | InvalidOptions
deriving DecidableEq

/-- A codebook entry agrees with the declared dimensions: one activation
per round, every activated channel in range. -/
def entryDimsOk (cb : Codebook) (e : CodeEntry) : Bool :=
  decide (e.barcode.length = cb.rounds) &&
    e.barcode.all (fun b => decide (b < cb.channels))

/-- A spot agrees with the declared dimensions of the codebook. -/
def spotDimsOk (cb : Codebook) (s : Spot) : Bool :=
  decide (s.intensities.length = cb.rounds) &&
    s.intensities.all (fun row => decide (row.length = cb.channels))

/-- A codebook is ambiguous when two entries share an identical barcode. -/
def hasDupBarcodes (cb : Codebook) : Bool :=
  !(decide (cb.entries.map CodeEntry.barcode).Nodup)

/-- Modelled from the spec: eager validation of a decode invocation, run
before any spot is processed: dimension agreement of the codebook and the
table, rejection of duplicate barcodes, and validation of the options. -/
def validateDecode (cb : Codebook) (tbl : List Spot) (optsOk : Bool) :
    Option Fatal :=
  if !(cb.entries.all (entryDimsOk cb) && tbl.all (spotDimsOk cb)) then
    some .DimensionMismatch
  else if hasDupBarcodes cb then some .InvalidCodebook
  else if !optsOk then some .InvalidOptions
  else none

/-- Modelled from the spec: the shared decoding contract. Validation runs
eagerly; a fatal error aborts with no output. Otherwise every input spot
yields exactly one record: a spot with a pathological measurement resolves
to a no-call with a diagnostic reason, any other spot is decoded by the
per-spot strategy. -/
def runDecoder (cb : Codebook) (tbl : List Spot) (optsOk : Bool)
    (spotCall : List (List ℤ) → Call) : Except Fatal (List DecodedRecord) :=
  match validateDecode cb tbl optsOk with
  | some e => .error e
  | none => .ok (tbl.map (fun s =>
      if s.pathological then ⟨s.id, .noCall "pathological"⟩
      else ⟨s.id, spotCall s.finiteVals⟩))

/-- Exact-match lookup of a barcode in the codebook. -/
def lookupBarcode (cb : Codebook) (bc : List Nat) : Option CodeEntry :=
  cb.entries.find? (fun e => decide (e.barcode = bc))

/-- The channels of a round whose intensity strictly exceeds the
threshold, with their channel indices starting at c. -/
def activeChannels (θ : ℤ) : Nat → List ℤ → List Nat
  | _, [] => []
  | c, x :: xs =>
    if θ < x then c :: activeChannels θ (c + 1) xs
    else activeChannels θ (c + 1) xs

/-- Modelled from the spec: the per-round thresholded call of
SimpleLookupDecoder; a round with no active channel or with more than one
is ambiguous. -/
def simpleLookupRound (θ : ℤ) (row : List ℤ) : Option Nat :=
  match activeChannels θ 0 row with
  | [c] => some c
  | _ => none

/-- Modelled from the spec: SimpleLookupDecoder on one spot; threshold
each round, concatenate into a barcode and look it up exactly; an
ambiguous round or no match is a no-call. -/
def simpleLookupSpot (cb : Codebook) (θ : ℤ) (vals : List (List ℤ)) : Call :=
  let roundCalls := vals.map (simpleLookupRound θ)
  if roundCalls.all Option.isSome then
    match lookupBarcode cb (roundCalls.filterMap id) with
    | some e => .target e.target
    | none => .noCall "no-match"
  else .noCall "ambiguous-round"

/-- The channel of maximal intensity walked with an accumulator: c is the
index of the next element, bestIdx and bestVal the running maximum; a
strictly larger value is required to displace it, so ties resolve to the
lowest channel index. -/
def argmaxAux (c bestIdx : Nat) (bestVal : ℤ) : List ℤ → Nat
  | [] => bestIdx
  | x :: xs =>
    if bestVal < x then argmaxAux (c + 1) c x xs
    else argmaxAux (c + 1) bestIdx bestVal xs

/-- Modelled from the spec: the channel with maximum intensity in a
round, ties broken by lowest channel index. -/
def argmaxChannel : List ℤ → Nat
  | [] => 0
  | x :: xs => argmaxAux 1 0 x xs

/-- Modelled from the spec: PerRoundMaxChannel on one spot; per round
take the strongest channel, optionally enforce a minimum intensity floor,
and look the barcode up exactly. -/
def perRoundMaxSpot (cb : Codebook) (minFloor : Option ℤ)
    (vals : List (List ℤ)) : Call :=
  let bc := vals.map argmaxChannel
  let floorOk := match minFloor with
    | none => true
    | some f => vals.all (fun row => decide (f ≤ row.getD (argmaxChannel row) 0))
  if floorOk then
    match lookupBarcode cb bc with
    | some e => .target e.target
    | none => .noCall "no-match"
  else .noCall "no-signal"

/-- A zero intensity row of the given width. -/
def zeroRow : Nat → List ℤ
  | 0 => []
  | k + 1 => 0 :: zeroRow k

/-- Modelled from the spec: the one-hot vector representation of one
round of a barcode: width k, a one at the activated channel b, zeros
elsewhere. -/
def oneHotRow : Nat → Nat → List ℤ
  | 0, _ => []
  | k + 1, 0 => 1 :: zeroRow k
  | k + 1, b + 1 => 0 :: oneHotRow k b

/-- Modelled from the spec: the vector representation of a barcode, the
concatenated one-hot rows. -/
def oneHotVec (channels : Nat) (bc : List Nat) : List ℤ :=
  (bc.map (oneHotRow channels)).flatten

/-- The flattened intensity vector of a spot (normalization configured as
none). -/
def flattenVals (vals : List (List ℤ)) : List ℤ := vals.flatten

/-- Modelled from the spec: the distance of the metric decoder, here the
squared Euclidean distance between equal-length vectors. -/
def sqDist (v w : List ℤ) : ℤ :=
  (List.zipWith (fun a b => (a - b) * (a - b)) v w).sum

/-- The running minimum of a list of costs. -/
def minCost (d : ℤ) : List ℤ → ℤ
  | [] => d
  | x :: xs => minCost (min d x) xs

/-- The distance of a spot to one codebook entry. -/
def entryDist (cb : Codebook) (vals : List (List ℤ)) (e : CodeEntry) : ℤ :=
  sqDist (flattenVals vals) (oneHotVec cb.channels e.barcode)

/-- Every codebook entry scored with its distance to the spot. -/
def scoredEntries (cb : Codebook) (vals : List (List ℤ)) :
    List (CodeEntry × ℤ) :=
  cb.entries.map (fun e => (e, entryDist cb vals e))

/-- The selection step of MetricDistance over the scored entries: assign
the minimum-distance entry when that distance is below the threshold, and
mark the spot ambiguous when two entries are equidistant at the minimum
instead of arbitrarily choosing. -/
def chooseMin (θ : ℤ) : List (CodeEntry × ℤ) → Call
  | [] => .noCall "empty-codebook"
  | s :: rest =>
    let dmin := minCost s.2 (rest.map Prod.snd)
    if dmin < θ then
      if 2 ≤ ((s :: rest).filter (fun p => decide (p.2 = dmin))).length then
        .noCall "ambiguous"
      else
        match (s :: rest).find? (fun p => decide (p.2 = dmin)) with
        | some p => .target p.1.target
        | none => .noCall "ambiguous"
    else .noCall "below-threshold"

/-- Modelled from the spec: MetricDistance on one spot; compute the
distance to every entry and select per the threshold and tie policy. -/
def metricDistanceSpot (cb : Codebook) (θ : ℤ) (vals : List (List ℤ)) :
    Call :=
  chooseMin θ (scoredEntries cb vals)

/-- The maximal intensity of a round. -/
def rowMax (row : List ℤ) : ℤ := row.getD (argmaxChannel row) 0

/-- Modelled from the spec: the cost of treating a given channel as the
called channel of a round, the intensity gap to the strongest channel
(the documented choice for the cost function the spec leaves open). -/
def roundCost (row : List ℤ) (ch : Nat) : ℤ := rowMax row - row.getD ch 0

/-- The total assignment cost of a barcode for a spot: the per-round
costs summed over the rounds not treated as corrected; r is the index of
the next round. -/
def totalCostAux (corrected : List Nat) : Nat → List (List ℤ) → List Nat → ℤ
  | _, [], _ => 0
  | _, _ :: _, [] => 0
  | r, row :: rows, ch :: chs =>
    (if r ∈ corrected then 0 else roundCost row ch) +
      totalCostAux corrected (r + 1) rows chs

/-- Modelled from the spec: the cost of one error-corrected
interpretation of a barcode, the corrected rounds contributing no cost. -/
def totalCost (vals : List (List ℤ)) (bc : List Nat) (corrected : List Nat) :
    ℤ :=
  totalCostAux corrected 0 vals bc

/-- All subsets of the given rounds of size at most err, the sets of
rounds a candidate interpretation may treat as corrected. -/
def subsetsUpTo : Nat → List Nat → List (List Nat)
  | _, [] => [[]]
  | err, r :: rs =>
    subsetsUpTo err rs ++
      (match err with
       | 0 => []
       | e + 1 => (subsetsUpTo e rs).map (fun s => r :: s))

/-- One candidate interpretation of the exhaustive search: a target, its
total cost and how many rounds it treats as corrected. -/
structure Cand where
  target : String
  cost : ℤ
  nCorrected : Nat
deriving DecidableEq

/-- Modelled from the spec: every candidate interpretation of the
exhaustive search, one per codebook entry and per corrected subset of
rounds of size at most errRounds. -/
def checkAllCands (cb : Codebook) (errRounds : Nat) (vals : List (List ℤ)) :
    List Cand :=
  cb.entries.flatMap (fun e =>
    (subsetsUpTo errRounds (List.range cb.rounds)).map (fun s =>
      ⟨e.target, totalCost vals e.barcode s, s.length⟩))

/-- Strictly better interpretation: lower cost, or equal cost with fewer
corrected rounds; on a full tie the earlier candidate is kept, giving the
deterministic entry-order tie-break. -/
def candBetter (a b : Cand) : Bool :=
  decide (a.cost < b.cost) ||
    (decide (a.cost = b.cost) && decide (a.nCorrected < b.nCorrected))

/-- The best candidate of the search, folded left to right. -/
def bestCand : Cand → List Cand → Cand
  | b, [] => b
  | b, x :: xs => bestCand (if candBetter x b then x else b) xs

/-- The selection step of CheckAll over the candidate interpretations:
the minimum-cost interpretation, accepted when its cost is within the
maximum-cost bound. -/
def chooseBest (maxCost : ℤ) : List Cand → Call
  | [] => .noCall "empty-codebook"
  | c :: cs =>
    let best := bestCand c cs
    if best.cost ≤ maxCost then .target best.target
    else .noCall "exceeds-cost-bound"

/-- Modelled from the spec: CheckAll on one spot; the globally
minimum-cost interpretation across all entries and corrected subsets,
accepted when its cost is within the maximum-cost bound. -/
def checkAllSpot (cb : Codebook) (errRounds : Nat) (maxCost : ℤ)
    (vals : List (List ℤ)) : Call :=
  chooseBest maxCost (checkAllCands cb errRounds vals)

/-- The calls of the sub-decoders that produced a target, with the index
of the sub-decoder that produced each; i is the index of the next call. -/
def calledTargets : Nat → List Call → List (Nat × String)
  | _, [] => []
  | i, Call.target t :: rest => (i, t) :: calledTargets (i + 1) rest
  | i, Call.noCall _ :: rest => calledTargets (i + 1) rest

/-- Modelled from the spec: the merge policy of MultiBarcodeDecoder for
one spot. A spot called to a single identity takes that call; calls to
different identities are a conflict no-call unless a priority order among
sub-decoders is configured, in which case the call of the
highest-priority sub-decoder that called wins; a spot uncalled by all
sub-decoders stays a no-call. -/
def mergeCalls (calls : List Call) (priority : Option (List Nat)) : Call :=
  let called := calledTargets 0 calls
  match called with
  | [] => .noCall "no-call"
  | (_, t) :: more =>
    if more.all (fun p => decide (p.2 = t)) then .target t
    else
      match priority with
      | none => .noCall "conflict"
      | some ord =>
        match ord.filterMap (fun i =>
            (called.find? (fun p => decide (p.1 = i))).map Prod.snd) with
        | [] => .noCall "conflict"
        | u :: _ => .target u

/-- Modelled from the spec: MultiBarcodeDecoder on one spot, running the
per-spot functions of the sub-decoders and merging their calls. -/
def multiBarcodeSpot (subs : List (List (List ℤ) → Call))
    (priority : Option (List Nat)) (vals : List (List ℤ)) : Call :=
  mergeCalls (subs.map (fun f => f vals)) priority

/-- SimpleLookupDecoder as a full decode run, a non-negative threshold
being the valid option range. -/
def simpleLookupDecode (cb : Codebook) (θ : ℤ) (tbl : List Spot) :
    Except Fatal (List DecodedRecord) :=
  runDecoder cb tbl (decide (0 ≤ θ)) (simpleLookupSpot cb θ)

/-- PerRoundMaxChannel as a full decode run. -/
def perRoundMaxDecode (cb : Codebook) (minFloor : Option ℤ)
    (tbl : List Spot) : Except Fatal (List DecodedRecord) :=
  runDecoder cb tbl true (perRoundMaxSpot cb minFloor)

/-- MetricDistance as a full decode run, a positive threshold being the
valid option range. -/
def metricDistanceDecode (cb : Codebook) (θ : ℤ) (tbl : List Spot) :
    Except Fatal (List DecodedRecord) :=
  runDecoder cb tbl (decide (0 < θ)) (metricDistanceSpot cb θ)

/-- CheckAll as a full decode run; the error-round budget may not exceed
the round count and the cost bound must be non-negative. -/
def checkAllDecode (cb : Codebook) (errRounds : Nat) (maxCost : ℤ)
    (tbl : List Spot) : Except Fatal (List DecodedRecord) :=
  runDecoder cb tbl
    (decide (errRounds ≤ cb.rounds) && decide (0 ≤ maxCost))
    (checkAllSpot cb errRounds maxCost)

/-- MultiBarcodeDecoder as a full decode run; a configured priority order
must only name existing sub-decoders. -/
def multiBarcodeDecode (cb : Codebook)
    (subs : List (List (List ℤ) → Call)) (priority : Option (List Nat))
    (tbl : List Spot) : Except Fatal (List DecodedRecord) :=
  runDecoder cb tbl
    (match priority with
     | none => true
     | some ord => ord.all (fun i => decide (i < subs.length)))
    (multiBarcodeSpot subs priority)

/-- A two-round, two-channel test codebook with two entries. -/
def cbT : Codebook := ⟨2, 2, [⟨"A", [0, 1]⟩, ⟨"B", [0, 0]⟩]⟩

/-- A test spot that exactly realizes the barcode of entry A. -/
def spotA : Spot := ⟨7, [[.val 1, .val 0], [.val 0, .val 1]]⟩

/-- A one-spot test table. -/
def tblT : List Spot := [spotA]

/-- The decoded record every decoder produces for the test table. -/
def recsA : List DecodedRecord := [⟨7, .target "A"⟩]

/-- A test spot with a pathological NaN measurement. -/
def spotNan : Spot := ⟨3, [[.val 1, .nan], [.val 0, .val 1]]⟩

/-- The default record used when indexing a decoded table. -/
def dummyRec : DecodedRecord := ⟨0, .noCall ""⟩

/-- The default spot used when indexing an intensity table. -/
def dummySpot : Spot := ⟨0, []⟩

/-- A test codebook with two entries sharing a barcode, rejected as
ambiguous at validation. -/
def cbDup : Codebook := ⟨2, 2, [⟨"A", [0, 1]⟩, ⟨"B", [0, 1]⟩]⟩

/-- A one-round, two-channel test codebook whose two entries are
equidistant from the measurement one-one. -/
def cbTie : Codebook := ⟨1, 2, [⟨"A", [0]⟩, ⟨"B", [1]⟩]⟩

end Starfish

/-! ## Theorems about exec.py -/

namespace Starfish

/-- C10: prepare_stage on the empty stage hits the index error on
cmdline[0] for every tempdir and environment; on a non-empty stage it
always returns a command line. -/
theorem prepare_stage_empty_fails_nonempty_total :
    (∀ (tempdir : String) (coverageEnabled : Bool),
      prepare_stage [] tempdir coverageEnabled = none) ∧
    (∀ (stage : List StageElem) (tempdir : String) (coverageEnabled : Bool),
      stage ≠ [] → (prepare_stage stage tempdir coverageEnabled).isSome) := by
  constructor
  · intro tempdir coverageEnabled
    rfl
  · intro stage tempdir coverageEnabled hne
    match stage with
    | [] => exact absurd rfl hne
    | e :: rest =>
      simp only [prepare_stage, List.map]
      split <;> (try split) <;> simp

/-- The subdirectory loop only performs makedirs operations. -/
theorem mkdirsLoop_no_rmtree (tempdir : String) (mf : String → Bool)
    (subdirs : List String) (d : String) :
    FsOp.rmtree d ∉ (mkdirsLoop tempdir mf subdirs).1 := by
  induction subdirs with
  | nil => simp [mkdirsLoop]
  | cons s more ih =>
    simp only [mkdirsLoop]
    split
    · simp
    · simp only [List.mem_cons]
      rintro (h | h)
      · exact FsOp.noConfusion h
      · exact ih h

/-- The command loop only performs check_call operations. -/
theorem cmdLoop_no_rmtree (tempdir : String) (cf : List String → Bool)
    (cov : Bool) (commands : List (List StageElem)) (d : String) :
    FsOp.rmtree d ∉ (cmdLoop tempdir cf cov commands).1 := by
  induction commands with
  | nil => simp [cmdLoop]
  | cons stage more ih =>
    simp only [cmdLoop]
    split
    · simp
    · split
      · simp
      · simp only [List.mem_cons]
        rintro (h | h)
        · exact FsOp.noConfusion h
        · exact ih h

/-- The try block of stages never removes the temporary directory. -/
theorem stagesTryBody_no_rmtree (commands : List (List StageElem))
    (subdirs : List String) (tempdir : String) (mf : String → Bool)
    (cf : List String → Bool) (cov : Bool) (d : String) :
    FsOp.rmtree d ∉ (stagesTryBody commands subdirs tempdir mf cf cov).1 := by
  simp only [stagesTryBody]
  split
  · exact mkdirsLoop_no_rmtree tempdir mf subdirs d
  · simp only [List.mem_append]
    rintro (h | h)
    · exact mkdirsLoop_no_rmtree tempdir mf subdirs d h
    · exact cmdLoop_no_rmtree tempdir cf cov commands d h

/-- C8: with keep_data false the temporary directory is removed as the
very last operation before stages returns, whatever the commands and
subdirectories and whether or not any of them fails; with keep_data true
stages never removes the temporary directory. -/
theorem stages_tempdir_cleanup (commands : List (List StageElem))
    (subdirs : List String) (tempdir : String) (mf : String → Bool)
    (cf : List String → Bool) (cov : Bool) :
    ((stages commands subdirs false tempdir mf cf cov).1.getLast? =
      some (FsOp.rmtree tempdir)) ∧
    (FsOp.rmtree tempdir ∉ (stages commands subdirs true tempdir mf cf cov).1) := by
  constructor
  · show ((FsOp.mkdtemp tempdir ::
        (stagesTryBody commands subdirs tempdir mf cf cov).1 ++
        [FsOp.rmtree tempdir]).getLast? = _)
    rw [show FsOp.mkdtemp tempdir ::
        (stagesTryBody commands subdirs tempdir mf cf cov).1 ++
        [FsOp.rmtree tempdir] =
        (FsOp.mkdtemp tempdir ::
          (stagesTryBody commands subdirs tempdir mf cf cov).1) ++
        [FsOp.rmtree tempdir] from rfl]
    exact List.getLast?_concat _
  · show FsOp.rmtree tempdir ∉ FsOp.mkdtemp tempdir ::
      (stagesTryBody commands subdirs tempdir mf cf cov).1 ++ []
    simp only [List.append_nil, List.mem_cons]
    rintro (h | h)
    · exact FsOp.noConfusion h
    · exact stagesTryBody_no_rmtree commands subdirs tempdir mf cf cov tempdir h

/-- C9: on a non-empty stage, prepare_stage returns the element-wise
mapping of the stage (callables applied to tempdir, strings unchanged,
order and length preserved), except that when coverage is enabled and the
first mapped element is starfish or validate-sptx, the fixed coverage
command replaces that first element and the remaining elements follow
unchanged. -/
theorem prepare_stage_elementwise (stage : List StageElem) (tempdir : String)
    (cov : Bool) (first : String) (rest : List String)
    (hmap : stage.map (evalElem tempdir) = first :: rest) :
    prepare_stage stage tempdir cov =
      some (if cov ∧ first = "starfish" then coverageStarfishCmd ++ rest
        else if cov ∧ first = "validate-sptx" then coverageValidateCmd ++ rest
        else first :: rest) := by
  simp only [prepare_stage, hmap]
  by_cases h1 : first = "starfish" ∧ cov = true
  · simp [h1.1, h1.2]
  · by_cases h2 : first = "validate-sptx" ∧ cov = true
    · have hns : ¬(cov = true ∧ first = "starfish") := fun hc => h1 ⟨hc.2, hc.1⟩
      simp only [if_neg h1, if_pos h2, if_neg hns, h2.1, h2.2]
      simp
    · have hns : ¬(cov = true ∧ first = "starfish") := fun hc => h1 ⟨hc.2, hc.1⟩
      have hnv : ¬(cov = true ∧ first = "validate-sptx") := fun hc => h2 ⟨hc.2, hc.1⟩
      simp only [if_neg h1, if_neg h2, if_neg hns, if_neg hnv]

/-- Witness for C9: a concrete stage with a callable and a string element,
with coverage enabled and a starfish entry point. -/
theorem prepare_stage_elementwise_witness :
    ([StageElem.str "starfish", StageElem.callable (fun t => t)] :
        List StageElem).map (evalElem "/tmp/d") = "starfish" :: ["/tmp/d"] ∧
    prepare_stage [StageElem.str "starfish", StageElem.callable (fun t => t)]
        "/tmp/d" true =
      some (if true = true ∧ "starfish" = "starfish" then
          coverageStarfishCmd ++ ["/tmp/d"]
        else if true = true ∧ "starfish" = "validate-sptx" then
          coverageValidateCmd ++ ["/tmp/d"]
        else "starfish" :: ["/tmp/d"]) := by
  refine ⟨rfl, ?_⟩
  exact prepare_stage_elementwise
    [StageElem.str "starfish", StageElem.callable (fun t => t)]
    "/tmp/d" true "starfish" ["/tmp/d"] rfl

/-- Witness for C10 at a concrete non-empty stage. -/
theorem prepare_stage_empty_fails_nonempty_total_witness :
    ([StageElem.str "ls"] : List StageElem) ≠ [] ∧
      (prepare_stage [StageElem.str "ls"] "/tmp/x" false).isSome := by
  refine ⟨by simp, ?_⟩
  exact prepare_stage_empty_fails_nonempty_total.2 [StageElem.str "ls"] "/tmp/x" false (by simp)

/-! ## Theorems about the decoder family -/

/-- A successful decode run produces the input spot identifiers, in
order, one record per spot. -/
theorem runDecoder_ok_ids (cb : Codebook) (tbl : List Spot) (optsOk : Bool)
    (f : List (List ℤ) → Call) (recs : List DecodedRecord)
    (h : runDecoder cb tbl optsOk f = .ok recs) :
    recs.map DecodedRecord.spotId = tbl.map Spot.id := by
  unfold runDecoder at h
  cases hv : validateDecode cb tbl optsOk with
  | some e => rw [hv] at h; exact absurd h (by simp)
  | none =>
    rw [hv] at h
    simp only [Except.ok.injEq] at h
    subst h
    rw [List.map_map]
    apply List.map_congr_left
    intro s _
    by_cases hp : s.pathological <;> simp [hp]

/-- C2: for every decoder of the family and every input table, a
successful decode yields exactly one record per input spot, carrying the
input spot identifiers in order, and duplicate-free whenever the input
identifiers are. -/
theorem decode_family_coverage :
    (∀ cb θ tbl recs, simpleLookupDecode cb θ tbl = .ok recs →
      recs.map DecodedRecord.spotId = tbl.map Spot.id ∧
        ((tbl.map Spot.id).Nodup → (recs.map DecodedRecord.spotId).Nodup)) ∧
    (∀ cb mf tbl recs, perRoundMaxDecode cb mf tbl = .ok recs →
      recs.map DecodedRecord.spotId = tbl.map Spot.id ∧
        ((tbl.map Spot.id).Nodup → (recs.map DecodedRecord.spotId).Nodup)) ∧
    (∀ cb θ tbl recs, metricDistanceDecode cb θ tbl = .ok recs →
      recs.map DecodedRecord.spotId = tbl.map Spot.id ∧
        ((tbl.map Spot.id).Nodup → (recs.map DecodedRecord.spotId).Nodup)) ∧
    (∀ cb er mc tbl recs, checkAllDecode cb er mc tbl = .ok recs →
      recs.map DecodedRecord.spotId = tbl.map Spot.id ∧
        ((tbl.map Spot.id).Nodup → (recs.map DecodedRecord.spotId).Nodup)) ∧
    (∀ cb subs prio tbl recs, multiBarcodeDecode cb subs prio tbl = .ok recs →
      recs.map DecodedRecord.spotId = tbl.map Spot.id ∧
        ((tbl.map Spot.id).Nodup → (recs.map DecodedRecord.spotId).Nodup)) := by
  refine ⟨fun cb θ tbl recs h => ?_, fun cb mf tbl recs h => ?_,
    fun cb θ tbl recs h => ?_, fun cb er mc tbl recs h => ?_,
    fun cb subs prio tbl recs h => ?_⟩ <;>
  · have hi := runDecoder_ok_ids _ _ _ _ _ h
    exact ⟨hi, fun hn => hi ▸ hn⟩

/-- Witness for C2: every one of the five decoders, run on the concrete
test table, covers it with duplicate-free identifiers. -/
theorem decode_family_coverage_witness :
    (recsA.map DecodedRecord.spotId = tblT.map Spot.id ∧
      ((tblT.map Spot.id).Nodup → (recsA.map DecodedRecord.spotId).Nodup)) ∧
    (recsA.map DecodedRecord.spotId = tblT.map Spot.id ∧
      ((tblT.map Spot.id).Nodup → (recsA.map DecodedRecord.spotId).Nodup)) ∧
    (recsA.map DecodedRecord.spotId = tblT.map Spot.id ∧
      ((tblT.map Spot.id).Nodup → (recsA.map DecodedRecord.spotId).Nodup)) ∧
    (recsA.map DecodedRecord.spotId = tblT.map Spot.id ∧
      ((tblT.map Spot.id).Nodup → (recsA.map DecodedRecord.spotId).Nodup)) ∧
    (recsA.map DecodedRecord.spotId = tblT.map Spot.id ∧
      ((tblT.map Spot.id).Nodup → (recsA.map DecodedRecord.spotId).Nodup)) :=
  ⟨decode_family_coverage.1 cbT 0 tblT recsA rfl,
   decode_family_coverage.2.1 cbT none tblT recsA rfl,
   decode_family_coverage.2.2.1 cbT 1 tblT recsA rfl,
   decode_family_coverage.2.2.2.1 cbT 0 0 tblT recsA rfl,
   decode_family_coverage.2.2.2.2 cbT [fun _ => Call.target "A"] none tblT
     recsA rfl⟩


/-- No calls are collected from a list of calls that are all no-calls. -/
theorem calledTargets_all_noCall (calls : List Call) (i : Nat)
    (h : ∀ c ∈ calls, ∃ r, c = Call.noCall r) :
    calledTargets i calls = [] := by
  induction calls generalizing i with
  | nil => rfl
  | cons c rest ih =>
    obtain ⟨r, hr⟩ := h c (by simp)
    subst hr
    simp only [calledTargets]
    exact ih (i + 1) (fun c hc => h c (by simp [hc]))

/-- C3: the merge policy of MultiBarcodeDecoder. Two sub-decoders calling
the same spot to different identities merge to a conflict no-call when no
priority order is configured; with a priority order configured the call
of the higher-priority sub-decoder wins; a spot uncalled by every
sub-decoder stays a no-call. -/
theorem multiBarcode_conflict_policy :
    (∀ (f1 f2 : List (List ℤ) → Call) (vals : List (List ℤ)) (t1 t2 : String),
      f1 vals = .target t1 → f2 vals = .target t2 → t1 ≠ t2 →
      multiBarcodeSpot [f1, f2] none vals = .noCall "conflict" ∧
      multiBarcodeSpot [f1, f2] (some [0, 1]) vals = .target t1 ∧
      multiBarcodeSpot [f1, f2] (some [1, 0]) vals = .target t2) ∧
    (∀ (subs : List (List (List ℤ) → Call)) (priority : Option (List Nat))
      (vals : List (List ℤ)),
      (∀ f ∈ subs, ∃ r, f vals = Call.noCall r) →
      multiBarcodeSpot subs priority vals = .noCall "no-call") := by
  constructor
  · intro f1 f2 vals t1 t2 h1 h2 hne
    refine ⟨?_, ?_, ?_⟩ <;>
      simp [multiBarcodeSpot, mergeCalls, calledTargets, h1, h2,
        Ne.symm hne, List.filterMap]
  · intro subs priority vals h
    have hall : ∀ c ∈ subs.map (fun f => f vals), ∃ r, c = Call.noCall r := by
      intro c hc
      obtain ⟨f, hf, rfl⟩ := List.mem_map.1 hc
      exact h f hf
    simp only [multiBarcodeSpot, mergeCalls,
      calledTargets_all_noCall _ 0 hall]

/-- Witness for C3: two concrete sub-decoders calling identities A and B
on the empty measurement, and two concrete sub-decoders declining. -/
theorem multiBarcode_conflict_policy_witness :
    (multiBarcodeSpot [fun _ => Call.target "A", fun _ => Call.target "B"]
        none [] = .noCall "conflict" ∧
      multiBarcodeSpot [fun _ => Call.target "A", fun _ => Call.target "B"]
        (some [0, 1]) [] = .target "A" ∧
      multiBarcodeSpot [fun _ => Call.target "A", fun _ => Call.target "B"]
        (some [1, 0]) [] = .target "B") ∧
    multiBarcodeSpot [fun _ => Call.noCall "r1", fun _ => Call.noCall "r2"]
        none [] = .noCall "no-call" :=
  ⟨multiBarcode_conflict_policy.1 (fun _ => Call.target "A")
      (fun _ => Call.target "B") [] "A" "B" rfl rfl (by decide),
   multiBarcode_conflict_policy.2
      [fun _ => Call.noCall "r1", fun _ => Call.noCall "r2"] none []
      (by intro f hf
          rcases List.mem_cons.1 hf with h | h
          · exact ⟨"r1", by rw [h]⟩
          · rcases List.mem_cons.1 h with h2 | h2
            · exact ⟨"r2", by rw [h2]⟩
            · exact absurd h2 (List.not_mem_nil f))⟩

/-- C4: a fatal validation error (DimensionMismatch, InvalidCodebook,
InvalidOptions) aborts the decode before any spot is processed, with no
partial output; when validation passes, every spot gets a record: a spot
with a pathological (NaN or infinite) measurement resolves to a
diagnostic no-call record while every other spot is decoded normally, so
one pathological spot never aborts the batch. -/
theorem decode_fatal_abort_and_spot_isolation :
    (∀ cb tbl optsOk f e, validateDecode cb tbl optsOk = some e →
      runDecoder cb tbl optsOk f = .error e) ∧
    (∀ cb tbl optsOk f, validateDecode cb tbl optsOk = none →
      ∃ recs, runDecoder cb tbl optsOk f = .ok recs ∧
        recs.length = tbl.length ∧
        ∀ i, i < tbl.length →
          (recs.getD i dummyRec).spotId = (tbl.getD i dummySpot).id ∧
          ((tbl.getD i dummySpot).pathological = true →
            (recs.getD i dummyRec).call = .noCall "pathological") ∧
          ((tbl.getD i dummySpot).pathological = false →
            (recs.getD i dummyRec).call =
              f (tbl.getD i dummySpot).finiteVals)) := by
  constructor
  · intro cb tbl optsOk f e h
    simp only [runDecoder, h]
  · intro cb tbl optsOk f h
    refine ⟨tbl.map (fun s =>
        if s.pathological then ⟨s.id, .noCall "pathological"⟩
        else ⟨s.id, f s.finiteVals⟩),
      by simp only [runDecoder, h], by simp, ?_⟩
    intro i hi
    have hx : tbl[i]? = some tbl[i] := List.getElem?_eq_getElem hi
    have hs : tbl.getD i dummySpot = tbl[i] := by
      rw [List.getD_eq_getElem?_getD, hx]
      rfl
    have hr : (tbl.map (fun s =>
        if s.pathological then (⟨s.id, .noCall "pathological"⟩ : DecodedRecord)
        else ⟨s.id, f s.finiteVals⟩)).getD i dummyRec =
        (if tbl[i].pathological then (⟨tbl[i].id, .noCall "pathological"⟩ : DecodedRecord)
         else ⟨tbl[i].id, f tbl[i].finiteVals⟩) := by
      rw [List.getD_eq_getElem?_getD, List.getElem?_map, hx]
      rfl
    rw [hs, hr]
    by_cases hp : tbl[i].pathological <;> simp [hp]

/-- Witness for C4: a duplicate-barcode codebook aborts with
InvalidCodebook on an empty table, and a table holding a NaN spot and a
clean spot decodes with per-spot isolation. -/
theorem decode_fatal_abort_and_spot_isolation_witness :
    (runDecoder cbDup [] true (fun _ => Call.noCall "x") =
      .error Fatal.InvalidCodebook) ∧
    (∃ recs, runDecoder cbT [spotNan, spotA] true (simpleLookupSpot cbT 0) =
        .ok recs ∧
      recs.length = [spotNan, spotA].length ∧
      ∀ i, i < [spotNan, spotA].length →
        (recs.getD i dummyRec).spotId =
          ([spotNan, spotA].getD i dummySpot).id ∧
        (([spotNan, spotA].getD i dummySpot).pathological = true →
          (recs.getD i dummyRec).call = .noCall "pathological") ∧
        (([spotNan, spotA].getD i dummySpot).pathological = false →
          (recs.getD i dummyRec).call =
            simpleLookupSpot cbT 0
              ([spotNan, spotA].getD i dummySpot).finiteVals)) :=
  ⟨decode_fatal_abort_and_spot_isolation.1 cbDup [] true
      (fun _ => Call.noCall "x") Fatal.InvalidCodebook rfl,
   decode_fatal_abort_and_spot_isolation.2 cbT [spotNan, spotA] true
      (simpleLookupSpot cbT 0) rfl⟩

/-! ## Helper lemmas about one-hot vectors, distances and minima -/

/-- A zero row has the requested width. -/
theorem zeroRow_length (k : Nat) : (zeroRow k).length = k := by
  induction k with
  | zero => rfl
  | succ n ih => simp [zeroRow, ih]

/-- Every element of a zero row is zero. -/
theorem mem_zeroRow {x : ℤ} {k : Nat} (h : x ∈ zeroRow k) : x = 0 := by
  induction k with
  | zero => cases h
  | succ n ih =>
    rcases List.mem_cons.1 h with h1 | h1
    · exact h1
    · exact ih h1

/-- A one-hot row has the requested width. -/
theorem oneHotRow_length (k b : Nat) : (oneHotRow k b).length = k := by
  induction k generalizing b with
  | zero => rfl
  | succ n ih =>
    cases b with
    | zero => simp [oneHotRow, zeroRow_length]
    | succ m => simp [oneHotRow, ih]

/-- The one-hot row reads one at its activated channel. -/
theorem oneHotRow_getD_self {k b : Nat} (h : b < k) :
    (oneHotRow k b).getD b 0 = 1 := by
  induction k generalizing b with
  | zero => omega
  | succ n ih =>
    cases b with
    | zero => rfl
    | succ m => exact ih (by omega)

/-- A zero row reads zero at every index. -/
theorem zeroRow_getD (k c : Nat) : (zeroRow k).getD c 0 = 0 := by
  induction k generalizing c with
  | zero => cases c <;> rfl
  | succ n ih =>
    cases c with
    | zero => rfl
    | succ m => exact ih m

/-- The one-hot row reads zero away from its activated channel. -/
theorem oneHotRow_getD_ne {k b c : Nat} (h : c ≠ b) :
    (oneHotRow k b).getD c 0 = 0 := by
  induction k generalizing b c with
  | zero => cases c <;> rfl
  | succ n ih =>
    cases b with
    | zero =>
      cases c with
      | zero => exact absurd rfl h
      | succ m => exact zeroRow_getD n m
    | succ b1 =>
      cases c with
      | zero => rfl
      | succ c1 => exact ih (by omega)

/-- Every element of a one-hot row is zero or one. -/
theorem mem_oneHotRow {x : ℤ} {k b : Nat} (h : x ∈ oneHotRow k b) :
    x = 0 ∨ x = 1 := by
  induction k generalizing b with
  | zero => cases h
  | succ n ih =>
    cases b with
    | zero =>
      rcases List.mem_cons.1 h with h1 | h1
      · exact Or.inr h1
      · exact Or.inl (mem_zeroRow h1)
    | succ m =>
      rcases List.mem_cons.1 h with h1 | h1
      · exact Or.inl h1
      · exact ih h1

/-- A one-hot row with its channel in range holds a one. -/
theorem one_mem_oneHotRow {k b : Nat} (h : b < k) : (1 : ℤ) ∈ oneHotRow k b := by
  induction k generalizing b with
  | zero => omega
  | succ n ih =>
    cases b with
    | zero => simp [oneHotRow]
    | succ m => exact List.mem_cons.2 (Or.inr (ih (by omega)))

/-- Distinct in-range channels give distinct one-hot rows. -/
theorem oneHotRow_inj {k b1 b2 : Nat} (h1 : b1 < k) (_h2 : b2 < k)
    (h : oneHotRow k b1 = oneHotRow k b2) : b1 = b2 := by
  by_contra hne
  have hx := oneHotRow_getD_self h1
  rw [h] at hx
  rw [oneHotRow_getD_ne hne] at hx
  exact absurd hx (by decide)

/-- The one-hot vector of a barcode has one block per round. -/
theorem oneHotVec_length (k : Nat) (bc : List Nat) :
    (oneHotVec k bc).length = bc.length * k := by
  induction bc with
  | nil => simp [oneHotVec]
  | cons b rest ih =>
    simp only [oneHotVec, List.map, List.flatten, List.length_append,
      oneHotRow_length]
    simp only [oneHotVec] at ih
    rw [ih, List.length_cons]
    ring

/-- Equal one-hot vectors of in-range barcodes of equal length come from
equal barcodes. -/
theorem oneHotVec_inj {k : Nat} {bc1 bc2 : List Nat}
    (hlen : bc1.length = bc2.length)
    (hr1 : ∀ b ∈ bc1, b < k) (hr2 : ∀ b ∈ bc2, b < k)
    (h : oneHotVec k bc1 = oneHotVec k bc2) : bc1 = bc2 := by
  induction bc1 generalizing bc2 with
  | nil => cases bc2 with
    | nil => rfl
    | cons b rest => cases hlen
  | cons b1 rest1 ih =>
    cases bc2 with
    | nil => cases hlen
    | cons b2 rest2 =>
      simp only [oneHotVec, List.map, List.flatten] at h
      have hl : (oneHotRow k b1).length = (oneHotRow k b2).length := by
        rw [oneHotRow_length, oneHotRow_length]
      obtain ⟨hhead, htail⟩ := List.append_inj h hl
      have hb : b1 = b2 :=
        oneHotRow_inj (hr1 b1 (by simp)) (hr2 b2 (by simp)) hhead
      have hrest : rest1 = rest2 :=
        ih (by simpa using hlen) (fun b hb1 => hr1 b (by simp [hb1]))
          (fun b hb2 => hr2 b (by simp [hb2])) htail
      rw [hb, hrest]

/-- The distance of a vector to itself vanishes. -/
theorem sqDist_self (v : List ℤ) : sqDist v v = 0 := by
  induction v with
  | nil => rfl
  | cons x xs ih =>
    simp only [sqDist, List.zipWith, List.sum_cons]
    simp only [sqDist] at ih
    rw [ih]
    ring

/-- Distances are non-negative. -/
theorem sqDist_nonneg (v w : List ℤ) : 0 ≤ sqDist v w := by
  induction v generalizing w with
  | nil => cases w <;> simp [sqDist]
  | cons x xs ih =>
    cases w with
    | nil => simp [sqDist]
    | cons y ys =>
      simp only [sqDist, List.zipWith, List.sum_cons]
      have h1 : 0 ≤ (x - y) * (x - y) := mul_self_nonneg _
      have h2 := ih ys
      simp only [sqDist] at h2
      omega

/-- A vanishing distance between equal-length vectors means equality. -/
theorem sqDist_eq_zero (v w : List ℤ) (hlen : v.length = w.length)
    (h : sqDist v w = 0) : v = w := by
  induction v generalizing w with
  | nil => cases w with
    | nil => rfl
    | cons y ys => cases hlen
  | cons x xs ih =>
    cases w with
    | nil => cases hlen
    | cons y ys =>
      simp only [sqDist, List.zipWith, List.sum_cons] at h
      have h1 : 0 ≤ (x - y) * (x - y) := mul_self_nonneg _
      have h2 : 0 ≤ sqDist xs ys := sqDist_nonneg xs ys
      simp only [sqDist] at h2
      have hx : (x - y) * (x - y) = 0 := by omega
      have hxy : x = y := by
        have := mul_self_eq_zero.1 hx
        omega
      have hrest : xs = ys := ih ys (by simpa using hlen) (by
        simp only [sqDist]
        omega)
      rw [hxy, hrest]

/-- The running minimum is at most its seed. -/
theorem minCost_le_seed (d : ℤ) (xs : List ℤ) : minCost d xs ≤ d := by
  induction xs generalizing d with
  | nil => exact le_refl d
  | cons x rest ih => exact le_trans (ih (min d x)) (min_le_left d x)

/-- The running minimum is at most every listed cost. -/
theorem minCost_le_mem (d : ℤ) (xs : List ℤ) (x : ℤ) (hx : x ∈ xs) :
    minCost d xs ≤ x := by
  induction xs generalizing d with
  | nil => cases hx
  | cons y rest ih =>
    rcases List.mem_cons.1 hx with h1 | h1
    · subst h1
      exact le_trans (minCost_le_seed (min d x) rest) (min_le_right d x)
    · exact ih _ h1

/-- The running minimum is the seed or one of the listed costs. -/
theorem minCost_mem (d : ℤ) (xs : List ℤ) :
    minCost d xs = d ∨ minCost d xs ∈ xs := by
  induction xs generalizing d with
  | nil => exact Or.inl rfl
  | cons x rest ih =>
    rcases ih (min d x) with h1 | h1
    · rcases le_or_lt d x with h2 | h2
      · rw [show minCost d (x :: rest) = minCost (min d x) rest from rfl, h1,
          min_eq_left h2]
        exact Or.inl rfl
      · rw [show minCost d (x :: rest) = minCost (min d x) rest from rfl, h1,
          min_eq_right (le_of_lt h2)]
        exact Or.inr (by simp)
    · exact Or.inr (List.mem_cons.2 (Or.inr h1))

/-- Exact lookup of the barcode of a listed entry finds that entry when
barcodes are duplicate-free. -/
theorem lookupBarcode_self (cb : Codebook) (e : CodeEntry)
    (hnd : (cb.entries.map CodeEntry.barcode).Nodup) (he : e ∈ cb.entries) :
    lookupBarcode cb e.barcode = some e := by
  cases hf : lookupBarcode cb e.barcode with
  | none =>
    rw [lookupBarcode, List.find?_eq_none] at hf
    exact absurd (by simp : decide (e.barcode = e.barcode) = true) (hf e he)
  | some a =>
    have ha : a ∈ cb.entries := List.mem_of_find?_eq_some hf
    have hpa : a.barcode = e.barcode := by
      have := List.find?_some hf
      simpa using this
    have : a = e := List.inj_on_of_nodup_map hnd ha he hpa
    rw [this]

/-- A duplicate-free list whose members all equal e has at most one
element. -/
theorem length_le_one_of_all_eq {α : Type} {l : List α} {e : α}
    (hnd : l.Nodup) (h : ∀ x ∈ l, x = e) : l.length ≤ 1 := by
  cases l with
  | nil => simp
  | cons x rest =>
    cases rest with
    | nil => simp
    | cons y rest2 =>
      have hx : x = e := h x (by simp)
      have hy : y = e := h y (by simp)
      rw [List.nodup_cons] at hnd
      exact absurd (by simp [hx, hy]) hnd.1

/-- A list holding two distinct members has at least two elements. -/
theorem two_le_length_of_two_mem {α : Type} {l : List α} {a b : α}
    (ha : a ∈ l) (hb : b ∈ l) (hne : a ≠ b) : 2 ≤ l.length := by
  cases l with
  | nil => cases ha
  | cons x rest =>
    cases rest with
    | nil =>
      have ha1 : a = x := by simpa using ha
      have hb1 : b = x := by simpa using hb
      exact absurd (ha1.trans hb1.symm) hne
    | cons y rest2 => simp

/-- Unpacking of the Boolean dimension check of a codebook entry. -/
theorem entryDimsOk_spec {cb : Codebook} {e : CodeEntry}
    (h : entryDimsOk cb e = true) :
    e.barcode.length = cb.rounds ∧ ∀ b ∈ e.barcode, b < cb.channels := by
  rw [entryDimsOk, Bool.and_eq_true, decide_eq_true_eq,
    List.all_eq_true] at h
  exact ⟨h.1, fun b hb => by simpa using h.2 b hb⟩

/-- In a codebook whose entries pass the dimension check and whose
barcodes are duplicate-free, only the entry itself is at distance zero
from its own one-hot vector. -/
theorem entryDist_zero_unique (cb : Codebook) (e : CodeEntry)
    (vals : List (List ℤ))
    (hdim : cb.entries.all (entryDimsOk cb) = true)
    (hnd : (cb.entries.map CodeEntry.barcode).Nodup)
    (he : e ∈ cb.entries)
    (hfv : flattenVals vals = oneHotVec cb.channels e.barcode) :
    ∀ e2 ∈ cb.entries, entryDist cb vals e2 = 0 → e2 = e := by
  intro e2 he2 hd0
  rw [entryDist, hfv] at hd0
  obtain ⟨hl1, hr1⟩ := entryDimsOk_spec (List.all_eq_true.1 hdim e he)
  obtain ⟨hl2, hr2⟩ := entryDimsOk_spec (List.all_eq_true.1 hdim e2 he2)
  have hlen : (oneHotVec cb.channels e.barcode).length =
      (oneHotVec cb.channels e2.barcode).length := by
    rw [oneHotVec_length, oneHotVec_length, hl1, hl2]
  have hveq := sqDist_eq_zero _ _ hlen hd0
  have hbc : e.barcode = e2.barcode :=
    oneHotVec_inj (by rw [hl1, hl2]) hr1 hr2 hveq
  exact List.inj_on_of_nodup_map hnd he2 he hbc.symm

/-- C5: a spot whose flattened (unnormalized) intensity vector exactly
equals the one-hot vector of a codebook entry is at distance zero from
that entry, and MetricDistance calls it as that entry for every strictly
positive threshold. -/
theorem metricDistance_exact_match (cb : Codebook) (θ : ℤ) (e : CodeEntry)
    (vals : List (List ℤ))
    (hθ : 0 < θ)
    (hdim : cb.entries.all (entryDimsOk cb) = true)
    (hnd : (cb.entries.map CodeEntry.barcode).Nodup)
    (he : e ∈ cb.entries)
    (hfv : flattenVals vals = oneHotVec cb.channels e.barcode) :
    entryDist cb vals e = 0 ∧
    metricDistanceSpot cb θ vals = .target e.target := by
  have hde : entryDist cb vals e = 0 := by
    rw [entryDist, hfv]
    exact sqDist_self _
  have huniq := entryDist_zero_unique cb e vals hdim hnd he hfv
  refine ⟨hde, ?_⟩
  cases hcb : cb.entries with
  | nil => rw [hcb] at he; cases he
  | cons a as =>
    rw [metricDistanceSpot, scoredEntries, hcb, List.map_cons]
    simp only [chooseMin, List.map_map]
    have hsnd : (Prod.snd ∘ fun x => (x, entryDist cb vals x)) =
        fun x => entryDist cb vals x := rfl
    rw [hsnd]
    have hain : a ∈ cb.entries := by rw [hcb]; exact List.mem_cons_self a as
    have hnonneg : ∀ e2 ∈ cb.entries, 0 ≤ entryDist cb vals e2 := by
      intro e2 _
      exact sqDist_nonneg _ _
    have hdmin : minCost (entryDist cb vals a)
        (as.map fun x => entryDist cb vals x) = 0 := by
      apply le_antisymm
      · rcases List.mem_cons.1 (hcb ▸ he) with h1 | h1
        · rw [h1] at hde
          rw [← hde]
          exact minCost_le_seed _ _
        · rw [← hde]
          exact minCost_le_mem _ _ _ (List.mem_map_of_mem _ h1)
      · rcases minCost_mem (entryDist cb vals a)
            (as.map fun x => entryDist cb vals x) with h1 | h1
        · rw [h1]
          exact hnonneg a hain
        · obtain ⟨e2, he2, hval⟩ := List.mem_map.1 h1
          rw [← hval]
          exact hnonneg e2 (by rw [hcb]; exact List.mem_cons.2 (Or.inr he2))
    rw [hdmin, if_pos hθ]
    have hfilter : ((a, entryDist cb vals a) ::
          as.map fun x => (x, entryDist cb vals x)).filter
          (fun p => decide (p.2 = 0)) =
        ((a :: as).filter
          (fun x => decide (entryDist cb vals x = 0))).map
          (fun x => (x, entryDist cb vals x)) := by
      rw [← List.map_cons (fun x => (x, entryDist cb vals x)) a as,
        List.filter_map]
      rfl
    rw [hfilter]
    have hnd2 : (a :: as).Nodup := by
      rw [← hcb]
      exact (List.Nodup.of_map _ hnd)
    have hflen : ((a :: as).filter
        (fun x => decide (entryDist cb vals x = 0))).length ≤ 1 := by
      apply length_le_one_of_all_eq (List.Nodup.filter _ hnd2)
      intro x hx
      have hmem := List.mem_of_mem_filter hx
      have hp := List.of_mem_filter hx
      exact huniq x (hcb ▸ hmem) (by simpa using hp)
    rw [if_neg (by rw [List.length_map]; omega)]
    cases hf : ((a, entryDist cb vals a) ::
        as.map fun x => (x, entryDist cb vals x)).find?
        (fun p => decide (p.2 = 0)) with
    | none =>
      rw [List.find?_eq_none] at hf
      have hepair : (e, entryDist cb vals e) ∈
          (a, entryDist cb vals a) ::
            as.map fun x => (x, entryDist cb vals x) := by
        rw [← List.map_cons (fun x => (x, entryDist cb vals x)) a as, ← hcb]
        exact List.mem_map_of_mem _ he
      exact absurd (by simpa using hde) (by simpa using hf _ hepair)
    | some p =>
      have hpmem : p ∈ (a, entryDist cb vals a) ::
          as.map fun x => (x, entryDist cb vals x) :=
        List.mem_of_find?_eq_some hf
      have hpp : p.2 = 0 := by simpa using List.find?_some hf
      rw [← List.map_cons (fun x => (x, entryDist cb vals x)) a as,
        ← hcb] at hpmem
      obtain ⟨e2, he2, hpe⟩ := List.mem_map.1 hpmem
      have hd2 : entryDist cb vals e2 = 0 := by
        rw [← hpe] at hpp
        exact hpp
      have he2e : e2 = e := huniq e2 he2 hd2
      rw [← hpe, he2e]

/-- Witness for C5: the test spot realizing entry A is called as A with
distance zero under threshold one. -/
theorem metricDistance_exact_match_witness :
    entryDist cbT [[1, 0], [0, 1]] ⟨"A", [0, 1]⟩ = 0 ∧
    metricDistanceSpot cbT 1 [[1, 0], [0, 1]] =
      .target (CodeEntry.mk "A" [0, 1]).target :=
  metricDistance_exact_match cbT 1 ⟨"A", [0, 1]⟩ [[1, 0], [0, 1]]
    (by decide) (by decide) (by decide) (by decide) (by decide)

/-- C7: the tie policy of MetricDistance is deterministic, an ambiguous
no-call: whenever two distinct codebook entries both attain the minimal
distance to a spot and that distance is below the threshold, the spot is
marked ambiguous instead of one entry being picked arbitrarily (the
embedding is a pure function, so identical inputs always give this same
outcome). -/
theorem metricDistance_tie_ambiguous (cb : Codebook) (θ : ℤ)
    (vals : List (List ℤ)) (e1 e2 : CodeEntry)
    (he1 : e1 ∈ cb.entries) (he2 : e2 ∈ cb.entries) (hne : e1 ≠ e2)
    (heq : entryDist cb vals e1 = entryDist cb vals e2)
    (hmin : ∀ e3 ∈ cb.entries, entryDist cb vals e1 ≤ entryDist cb vals e3)
    (hθ : entryDist cb vals e1 < θ) :
    metricDistanceSpot cb θ vals = .noCall "ambiguous" := by
  cases hcb : cb.entries with
  | nil => rw [hcb] at he1; cases he1
  | cons a as =>
    rw [metricDistanceSpot, scoredEntries, hcb, List.map_cons]
    simp only [chooseMin, List.map_map]
    have hsnd : (Prod.snd ∘ fun x => (x, entryDist cb vals x)) =
        fun x => entryDist cb vals x := rfl
    rw [hsnd]
    have hain : a ∈ cb.entries := by rw [hcb]; exact List.mem_cons_self a as
    have hdmin : minCost (entryDist cb vals a)
        (as.map fun x => entryDist cb vals x) = entryDist cb vals e1 := by
      apply le_antisymm
      · rcases List.mem_cons.1 (hcb ▸ he1) with h1 | h1
        · rw [h1]
          exact minCost_le_seed _ _
        · exact minCost_le_mem _ _ _ (List.mem_map_of_mem _ h1)
      · rcases minCost_mem (entryDist cb vals a)
            (as.map fun x => entryDist cb vals x) with h1 | h1
        · rw [h1]
          exact hmin a hain
        · obtain ⟨e3, he3, hval⟩ := List.mem_map.1 h1
          rw [← hval]
          exact hmin e3 (by rw [hcb]; exact List.mem_cons.2 (Or.inr he3))
    rw [hdmin, if_pos hθ]
    have hpair : ∀ x ∈ cb.entries, entryDist cb vals x = entryDist cb vals e1 →
        (x, entryDist cb vals x) ∈
          ((a, entryDist cb vals a) ::
            as.map fun x => (x, entryDist cb vals x)).filter
            (fun p => decide (p.2 = entryDist cb vals e1)) := by
      intro x hx hdx
      rw [List.mem_filter]
      constructor
      · rw [← List.map_cons (fun x => (x, entryDist cb vals x)) a as, ← hcb]
        exact List.mem_map_of_mem _ hx
      · simpa using hdx
    have h1 := hpair e1 he1 rfl
    have h2 := hpair e2 he2 heq.symm
    have hlen2 : 2 ≤ (((a, entryDist cb vals a) ::
        as.map fun x => (x, entryDist cb vals x)).filter
        (fun p => decide (p.2 = entryDist cb vals e1))).length :=
      two_le_length_of_two_mem h1 h2 (by
        intro hcontra
        exact hne (congrArg Prod.fst hcontra))
    rw [if_pos hlen2]

/-- Witness for C7: the measurement one-one in the tie codebook is
equidistant from entries A and B and below threshold two, so the spot is
ambiguous. -/
theorem metricDistance_tie_ambiguous_witness :
    metricDistanceSpot cbTie 2 [[1, 1]] = .noCall "ambiguous" :=
  metricDistance_tie_ambiguous cbTie 2 [[1, 1]] ⟨"A", [0]⟩ ⟨"B", [1]⟩
    (by decide) (by decide) (by decide) (by decide) (by decide) (by decide)

/-! ## Helper lemmas for the baseline equivalence of CheckAll -/

/-- No channel of a zero row exceeds a non-negative threshold. -/
theorem activeChannels_zeroRow {θ : ℤ} (hθ : 0 ≤ θ) (c k : Nat) :
    activeChannels θ c (zeroRow k) = [] := by
  induction k generalizing c with
  | zero => rfl
  | succ n ih =>
    show activeChannels θ c (0 :: zeroRow n) = []
    rw [activeChannels, if_neg (by omega)]
    exact ih (c + 1)

/-- On a one-hot row a threshold in the unit interval activates exactly
the hot channel. -/
theorem activeChannels_oneHotRow {θ : ℤ} {k b : Nat} (hθ0 : 0 ≤ θ)
    (hθ1 : θ < 1) (hb : b < k) (c : Nat) :
    activeChannels θ c (oneHotRow k b) = [c + b] := by
  induction k generalizing b c with
  | zero => omega
  | succ n ih =>
    cases b with
    | zero =>
      show activeChannels θ c (1 :: zeroRow n) = [c + 0]
      rw [activeChannels, if_pos hθ1, activeChannels_zeroRow hθ0]
      rfl
    | succ m =>
      show activeChannels θ c (0 :: oneHotRow n m) = [c + (m + 1)]
      rw [activeChannels, if_neg (by omega)]
      rw [ih (by omega) (c + 1)]
      congr 1
      omega

/-- The accumulator wins over a whole zero row when it is non-negative. -/
theorem argmaxAux_zeroRow {v : ℤ} (hv : 0 ≤ v) (k c i : Nat) :
    argmaxAux c i v (zeroRow k) = i := by
  induction k generalizing c with
  | zero => rfl
  | succ n ih =>
    show argmaxAux c i v (0 :: zeroRow n) = i
    rw [argmaxAux, if_neg (by omega)]
    exact ih (c + 1)

/-- Walking a one-hot row with a small non-negative accumulator lands on
the hot channel. -/
theorem argmaxAux_oneHotRow {k b : Nat} {v : ℤ} (hb : b < k) (hv0 : 0 ≤ v)
    (hv1 : v < 1) (c i : Nat) :
    argmaxAux c i v (oneHotRow k b) = c + b := by
  induction k generalizing b c i v with
  | zero => omega
  | succ n ih =>
    cases b with
    | zero =>
      show argmaxAux c i v (1 :: zeroRow n) = c + 0
      rw [argmaxAux, if_pos hv1, argmaxAux_zeroRow (by omega)]
      rfl
    | succ m =>
      show argmaxAux c i v (0 :: oneHotRow n m) = c + (m + 1)
      rw [argmaxAux, if_neg (by omega), ih (by omega) hv0 hv1]
      omega

/-- The strongest channel of a one-hot row is its hot channel. -/
theorem argmaxChannel_oneHotRow {k b : Nat} (hb : b < k) :
    argmaxChannel (oneHotRow k b) = b := by
  cases k with
  | zero => omega
  | succ n =>
    cases b with
    | zero =>
      show argmaxAux 1 0 1 (zeroRow n) = 0
      exact argmaxAux_zeroRow (by norm_num) n 1 0
    | succ m =>
      show argmaxAux 1 0 0 (oneHotRow n m) = m + 1
      rw [argmaxAux_oneHotRow (by omega) (by omega) (by omega)]
      omega

/-- The maximal intensity of a one-hot row is one. -/
theorem rowMax_oneHotRow {k b : Nat} (hb : b < k) :
    rowMax (oneHotRow k b) = 1 := by
  rw [rowMax, argmaxChannel_oneHotRow hb, oneHotRow_getD_self hb]

/-- Calling the hot channel of a one-hot row costs nothing. -/
theorem roundCost_oneHotRow_self {k b : Nat} (hb : b < k) :
    roundCost (oneHotRow k b) b = 0 := by
  rw [roundCost, rowMax_oneHotRow hb, oneHotRow_getD_self hb]
  ring

/-- Calling any other channel of a one-hot row costs one. -/
theorem roundCost_oneHotRow_ne {k b c : Nat} (hb : b < k) (hc : c ≠ b) :
    roundCost (oneHotRow k b) c = 1 := by
  rw [roundCost, rowMax_oneHotRow hb, oneHotRow_getD_ne hc]
  ring

/-- Round costs against a one-hot row are never negative. -/
theorem roundCost_oneHotRow_nonneg {k b : Nat} (hb : b < k) (c : Nat) :
    0 ≤ roundCost (oneHotRow k b) c := by
  by_cases hc : c = b
  · rw [hc, roundCost_oneHotRow_self hb]
  · rw [roundCost_oneHotRow_ne hb hc]
    omega

/-- A barcode costs nothing against its own noise-free realization. -/
theorem totalCostAux_self {k : Nat} {bc : List Nat}
    (hr : ∀ b ∈ bc, b < k) (r : Nat) :
    totalCostAux [] r (bc.map (oneHotRow k)) bc = 0 := by
  induction bc generalizing r with
  | nil => rfl
  | cons b rest ih =>
    show (if r ∈ ([] : List Nat) then 0 else roundCost (oneHotRow k b) b) +
        totalCostAux [] (r + 1) (rest.map (oneHotRow k)) rest = 0
    rw [if_neg (List.not_mem_nil r),
      roundCost_oneHotRow_self (hr b (by simp)),
      ih (fun x hx => hr x (by simp [hx]))]
    norm_num

/-- Costs against a noise-free realization are never negative. -/
theorem totalCostAux_nonneg {k : Nat} {bc1 : List Nat}
    (hr : ∀ b ∈ bc1, b < k) (bc2 : List Nat) (r : Nat) :
    0 ≤ totalCostAux [] r (bc1.map (oneHotRow k)) bc2 := by
  induction bc1 generalizing bc2 r with
  | nil => rw [List.map_nil, totalCostAux]
  | cons b rest ih =>
    cases bc2 with
    | nil =>
      rw [List.map_cons, totalCostAux]
    | cons c cs =>
      show 0 ≤ (if r ∈ ([] : List Nat) then 0
          else roundCost (oneHotRow k b) c) +
        totalCostAux [] (r + 1) (rest.map (oneHotRow k)) cs
      rw [if_neg (List.not_mem_nil r)]
      have h1 := roundCost_oneHotRow_nonneg (hr b (by simp)) c
      have h2 := ih (fun x hx => hr x (by simp [hx])) cs (r + 1)
      omega

/-- A different barcode of the same length costs strictly more than zero
against a noise-free realization. -/
theorem totalCostAux_pos {k : Nat} {bc1 bc2 : List Nat}
    (hr : ∀ b ∈ bc1, b < k) (hlen : bc1.length = bc2.length)
    (hne : bc1 ≠ bc2) (r : Nat) :
    0 < totalCostAux [] r (bc1.map (oneHotRow k)) bc2 := by
  induction bc1 generalizing bc2 r with
  | nil =>
    cases bc2 with
    | nil => exact absurd rfl hne
    | cons c cs => cases hlen
  | cons b rest ih =>
    cases bc2 with
    | nil => cases hlen
    | cons c cs =>
      show 0 < (if r ∈ ([] : List Nat) then 0
          else roundCost (oneHotRow k b) c) +
        totalCostAux [] (r + 1) (rest.map (oneHotRow k)) cs
      rw [if_neg (List.not_mem_nil r)]
      have hrest : ∀ x ∈ rest, x < k := fun x hx => hr x (by simp [hx])
      by_cases hbc : c = b
      · have hne2 : rest ≠ cs := by
          intro hcontra
          exact hne (by rw [hbc, hcontra])
        have h1 := roundCost_oneHotRow_nonneg (hr b (by simp)) c
        have h2 := ih hrest (by simpa using hlen) hne2 (r + 1)
        omega
      · rw [roundCost_oneHotRow_ne (hr b (by simp)) hbc]
        have h2 := totalCostAux_nonneg hrest cs (r + 1)
        omega

/-- With a zero error budget the only corrected subset is the empty
one. -/
theorem subsetsUpTo_zero (l : List Nat) : subsetsUpTo 0 l = [[]] := by
  induction l with
  | nil => rfl
  | cons r rs ih =>
    show subsetsUpTo 0 rs ++ [] = [[]]
    rw [List.append_nil, ih]

/-- With a zero error budget the candidates are one per codebook entry,
scored over all rounds. -/
theorem checkAllCands_zero (cb : Codebook) (vals : List (List ℤ)) :
    checkAllCands cb 0 vals =
      cb.entries.map (fun e =>
        ⟨e.target, totalCost vals e.barcode [], 0⟩) := by
  rw [checkAllCands, subsetsUpTo_zero]
  induction cb.entries with
  | nil => rfl
  | cons a as ih =>
    rw [List.flatMap_cons, List.map_cons, ih]
    rfl

/-- A strictly better candidate has a cost no larger. -/
theorem candBetter_cost_le {a b : Cand} (h : candBetter a b = true) :
    a.cost ≤ b.cost := by
  rw [candBetter, Bool.or_eq_true, Bool.and_eq_true] at h
  rcases h with h1 | ⟨h1, _⟩
  · exact le_of_lt (of_decide_eq_true h1)
  · exact le_of_eq (of_decide_eq_true h1)

/-- A candidate that is not strictly better has a cost no smaller. -/
theorem candBetter_false_cost_ge {a b : Cand} (h : candBetter a b = false) :
    b.cost ≤ a.cost := by
  rw [candBetter] at h
  rcases Bool.or_eq_false_iff.1 h with ⟨h1, _⟩
  have := of_decide_eq_false h1
  omega

/-- The selected candidate is the seed or one of the listed ones. -/
theorem bestCand_mem (b : Cand) (l : List Cand) :
    bestCand b l ∈ b :: l := by
  induction l generalizing b with
  | nil => simp [bestCand]
  | cons x xs ih =>
    show bestCand (if candBetter x b then x else b) xs ∈ b :: x :: xs
    by_cases hc : candBetter x b
    · rw [if_pos hc]
      rcases List.mem_cons.1 (ih x) with h | h
      · rw [h]
        exact List.mem_cons.2 (Or.inr (List.mem_cons_self x xs))
      · exact List.mem_cons.2 (Or.inr (List.mem_cons.2 (Or.inr h)))
    · rw [if_neg hc]
      rcases List.mem_cons.1 (ih b) with h | h
      · rw [h]
        exact List.mem_cons_self b _
      · exact List.mem_cons.2 (Or.inr (List.mem_cons.2 (Or.inr h)))

/-- The selected candidate costs no more than the seed. -/
theorem bestCand_cost_le_seed (b : Cand) (l : List Cand) :
    (bestCand b l).cost ≤ b.cost := by
  induction l generalizing b with
  | nil => exact le_refl _
  | cons x xs ih =>
    show (bestCand (if candBetter x b then x else b) xs).cost ≤ b.cost
    refine le_trans (ih (if candBetter x b then x else b)) ?_
    by_cases hc : candBetter x b
    · rw [if_pos hc]
      exact candBetter_cost_le hc
    · rw [if_neg hc]

/-- The selected candidate costs no more than any listed candidate. -/
theorem bestCand_cost_le_mem (b : Cand) (l : List Cand) (x : Cand)
    (hx : x ∈ l) : (bestCand b l).cost ≤ x.cost := by
  induction l generalizing b with
  | nil => cases hx
  | cons y ys ih =>
    rcases List.mem_cons.1 hx with h1 | h1
    · subst h1
      show (bestCand (if candBetter x b then x else b) ys).cost ≤ x.cost
      refine le_trans (bestCand_cost_le_seed _ _) ?_
      by_cases hc : candBetter x b
      · rw [if_pos hc]
      · rw [if_neg hc]
        exact candBetter_false_cost_ge (Bool.eq_false_iff.2 hc)
    · exact ih _ h1

/-- SimpleLookupDecoder calls the realized entry on its noise-free
one-hot measurement, for any threshold in the unit interval. -/
theorem simpleLookup_noise_free (cb : Codebook) (e : CodeEntry) (θ : ℤ)
    (hdim : cb.entries.all (entryDimsOk cb) = true)
    (hnd : (cb.entries.map CodeEntry.barcode).Nodup)
    (he : e ∈ cb.entries) (hθ0 : 0 ≤ θ) (hθ1 : θ < 1) :
    simpleLookupSpot cb θ (e.barcode.map (oneHotRow cb.channels)) =
      .target e.target := by
  obtain ⟨hlen_e, hr_e⟩ := entryDimsOk_spec (List.all_eq_true.1 hdim e he)
  have hrounds : (e.barcode.map (oneHotRow cb.channels)).map
      (simpleLookupRound θ) = e.barcode.map some := by
    rw [List.map_map]
    apply List.map_congr_left
    intro b hb
    show simpleLookupRound θ (oneHotRow cb.channels b) = some b
    rw [simpleLookupRound, activeChannels_oneHotRow hθ0 hθ1 (hr_e b hb) 0,
      Nat.zero_add]
  simp only [simpleLookupSpot]
  rw [hrounds]
  rw [if_pos (by simp)]
  have hfm : (e.barcode.map some).filterMap id = e.barcode := by
    simp
  rw [hfm, lookupBarcode_self cb e hnd he]

/-- PerRoundMaxChannel calls the realized entry on its noise-free
one-hot measurement, with no intensity floor configured. -/
theorem perRoundMax_noise_free (cb : Codebook) (e : CodeEntry)
    (hdim : cb.entries.all (entryDimsOk cb) = true)
    (hnd : (cb.entries.map CodeEntry.barcode).Nodup)
    (he : e ∈ cb.entries) :
    perRoundMaxSpot cb none (e.barcode.map (oneHotRow cb.channels)) =
      .target e.target := by
  obtain ⟨hlen_e, hr_e⟩ := entryDimsOk_spec (List.all_eq_true.1 hdim e he)
  have hbc : (e.barcode.map (oneHotRow cb.channels)).map argmaxChannel =
      e.barcode := by
    rw [List.map_map]
    have hcg : ∀ b ∈ e.barcode,
        (argmaxChannel ∘ oneHotRow cb.channels) b = id b := by
      intro b hb
      exact argmaxChannel_oneHotRow (hr_e b hb)
    rw [List.map_congr_left hcg, List.map_id]
  simp only [perRoundMaxSpot]
  rw [hbc, if_pos trivial, lookupBarcode_self cb e hnd he]

/-- The selection step of CheckAll calls the common target of the
zero-cost candidates when candidate costs are non-negative, one candidate
has cost zero, and the cost bound is non-negative. -/
theorem chooseBest_unique_zero (maxCost : ℤ) (l : List Cand) (t : String)
    (hzero : ∃ c ∈ l, c.cost = 0 ∧ c.target = t)
    (hnonneg : ∀ c ∈ l, 0 ≤ c.cost)
    (huniq : ∀ c ∈ l, c.cost = 0 → c.target = t)
    (hmax : 0 ≤ maxCost) :
    chooseBest maxCost l = .target t := by
  cases l with
  | nil =>
    obtain ⟨c0, hc0, _⟩ := hzero
    cases hc0
  | cons c cs =>
    simp only [chooseBest]
    have hmem := bestCand_mem c cs
    have hble : (bestCand c cs).cost ≤ 0 := by
      obtain ⟨c0, hc0mem, hc0cost, _⟩ := hzero
      rcases List.mem_cons.1 hc0mem with h1 | h1
      · rw [← hc0cost, h1]
        exact bestCand_cost_le_seed c cs
      · rw [← hc0cost]
        exact bestCand_cost_le_mem c cs c0 h1
    have hge : 0 ≤ (bestCand c cs).cost := hnonneg _ hmem
    have hcost0 : (bestCand c cs).cost = 0 := le_antisymm hble hge
    rw [if_pos (by omega)]
    rw [huniq _ hmem hcost0]

/-- CheckAll with a zero error budget calls the realized entry on its
noise-free one-hot measurement, for any non-negative cost bound. -/
theorem checkAll_noise_free (cb : Codebook) (e : CodeEntry) (maxCost : ℤ)
    (hdim : cb.entries.all (entryDimsOk cb) = true)
    (hnd : (cb.entries.map CodeEntry.barcode).Nodup)
    (he : e ∈ cb.entries) (hmax : 0 ≤ maxCost) :
    checkAllSpot cb 0 maxCost (e.barcode.map (oneHotRow cb.channels)) =
      .target e.target := by
  obtain ⟨hlen_e, hr_e⟩ := entryDimsOk_spec (List.all_eq_true.1 hdim e he)
  have hcost_e : totalCost (e.barcode.map (oneHotRow cb.channels))
      e.barcode [] = 0 := totalCostAux_self hr_e 0
  rw [checkAllSpot, checkAllCands_zero]
  apply chooseBest_unique_zero
  · exact ⟨⟨e.target, totalCost (e.barcode.map (oneHotRow cb.channels))
      e.barcode [], 0⟩, List.mem_map_of_mem _ he, hcost_e, rfl⟩
  · intro c hc
    obtain ⟨e3, he3, hce⟩ := List.mem_map.1 hc
    rw [← hce]
    exact totalCostAux_nonneg hr_e e3.barcode 0
  · intro c hc hc0
    obtain ⟨e3, he3, hce⟩ := List.mem_map.1 hc
    obtain ⟨hl3, _⟩ := entryDimsOk_spec (List.all_eq_true.1 hdim e3 he3)
    by_cases hbc : e.barcode = e3.barcode
    · have he3e : e3 = e := List.inj_on_of_nodup_map hnd he3 he hbc.symm
      rw [← hce]
      rw [he3e]
    · exfalso
      have hpos := totalCostAux_pos hr_e
        (by rw [hlen_e, hl3]) hbc 0
      rw [← hce] at hc0
      have : totalCost (e.barcode.map (oneHotRow cb.channels))
          e3.barcode [] = 0 := hc0
      rw [totalCost] at this
      omega
  · exact hmax

/-- C6: on a noise-free input, a spot whose measurements exactly realize
a codebook entry as one-hot intensities, CheckAll with a zero error-round
budget produces the identical call to SimpleLookupDecoder and to
PerRoundMaxChannel, namely the realized target. -/
theorem checkAll_baseline_equivalence (cb : Codebook) (e : CodeEntry)
    (θ maxCost : ℤ) (vals : List (List ℤ))
    (hdim : cb.entries.all (entryDimsOk cb) = true)
    (hnd : (cb.entries.map CodeEntry.barcode).Nodup)
    (he : e ∈ cb.entries)
    (hvals : vals = e.barcode.map (oneHotRow cb.channels))
    (hθ0 : 0 ≤ θ) (hθ1 : θ < 1) (hmax : 0 ≤ maxCost) :
    checkAllSpot cb 0 maxCost vals = simpleLookupSpot cb θ vals ∧
    checkAllSpot cb 0 maxCost vals = perRoundMaxSpot cb none vals ∧
    checkAllSpot cb 0 maxCost vals = .target e.target := by
  subst hvals
  have h1 := checkAll_noise_free cb e maxCost hdim hnd he hmax
  have h2 := simpleLookup_noise_free cb e θ hdim hnd he hθ0 hθ1
  have h3 := perRoundMax_noise_free cb e hdim hnd he
  exact ⟨h1.trans h2.symm, h1.trans h3.symm, h1⟩

/-- Witness for C6: on the noise-free realization of entry A of the test
codebook, CheckAll at a zero error budget agrees with the two baseline
decoders and calls A. -/
theorem checkAll_baseline_equivalence_witness :
    checkAllSpot cbT 0 0 [[1, 0], [0, 1]] =
      simpleLookupSpot cbT 0 [[1, 0], [0, 1]] ∧
    checkAllSpot cbT 0 0 [[1, 0], [0, 1]] =
      perRoundMaxSpot cbT none [[1, 0], [0, 1]] ∧
    checkAllSpot cbT 0 0 [[1, 0], [0, 1]] =
      .target (CodeEntry.mk "A" [0, 1]).target :=
  checkAll_baseline_equivalence cbT ⟨"A", [0, 1]⟩ 0 0 [[1, 0], [0, 1]]
    (by decide) (by decide) (by decide) (by decide) (by decide) (by decide)
    (by decide)

/-- C1 counterexample: the package does not export exactly the five
strategies, because the type filter also accepts DecodeSpotsAlgorithm
itself (a class is a subclass of itself), so the name
DecodeSpotsAlgorithm is a member of the computed export list as well. -/
theorem allExports_not_exactly_five : ¬ exportsExactlyFive := by
  intro h
  have hmem : "DecodeSpotsAlgorithm" ∈ allExports := by decide
  have := h.2.2 "DecodeSpotsAlgorithm" hmem
  revert this
  decide

/-- C1 amended: every name in the computed export list is bound to a class
that is a subclass of DecodeSpotsAlgorithm, each of the five strategy
names is a member, and the export list consists of exactly the five
strategy names together with the abstract base class name
DecodeSpotsAlgorithm. -/
theorem allExports_five_plus_base :
    (∀ n ∈ allExports, ∃ c, moduleLocals.lookup n = some (.cls c) ∧
      pyIssubclass c .DecodeSpotsAlgorithm) ∧
    (∀ s ∈ fiveStrategyNames, s ∈ allExports) ∧
    ("DecodeSpotsAlgorithm" ∈ allExports) ∧
    (∀ n ∈ allExports, n ∈ fiveStrategyNames ∨ n = "DecodeSpotsAlgorithm") := by
  decide

end Starfish
